/-
  Verification of the hybrid LinUCB portfolio dispatch policy
  implemented in split_hybridlinucb.py.

  The Python source is embedded shallowly: machine floats become exact
  rationals, numpy matrices become Mathlib matrices over ℚ indexed by Fin,
  and the mutable state of main's round loop becomes explicit state passing.
  The only real-valued ingredient is np.sqrt in the UCB score, embedded as
  Real.sqrt.
-/
import Mathlib

set_option maxHeartbeats 1000000

namespace SplitHybrid

open Matrix

/-! ## Constants of the source (module-level globals) -/

/-- The SOLVERS ordered dictionary: solver name and invocation template. -/
def SOLVERS : List (String × String) :=
  [ ("Z3", "z3 -T:18")
  , ("CVC4", "cvc4 --tlimit=18000")
  , ("BOOLECTOR", "./tools/boolector-3.2.1/build/bin/boolector -t 18")
  , ("YICES", "./tools/yices-2.6.2/bin/yices-smt2 --timeout=18") ]

/-- The PROBES list of z3 structural probes (the source lists arith-max-bw twice). -/
def PROBES : List String :=
  [ "size", "num-exprs", "num-consts", "arith-avg-deg", "arith-max-bw"
  , "arith-max-bw", "arith-avg-bw", "depth", "num-bool-consts"
  , "num-arith-consts", "num-bv-consts" ]

/-- TIMEOUT = 60.0, the total time budget of a round. -/
def TIMEOUT : ℚ := 60

/-- ALPHA = 2.358, the fixed UCB confidence coefficient. -/
def ALPHA : ℚ := 2.358

/-! ## Engine attempt outcomes (run_problem) -/

/-- Parsed outcome of one engine attempt, as classified by output2result
plus the timeout branch of run_problem. -/
inductive SolverRes
  | sat
  | unsat
  | unknown
  | timeout
  | error
  deriving DecidableEq, Repr

/-- The Result namedtuple of the source: problem name, parsed outcome,
recorded elapsed time. -/
structure ResultT where
  problem : String
  result : SolverRes
  elapsed : ℚ
  deriving DecidableEq, Repr

/-- External behaviour of one engine run: either the process.wait timed out,
or the process finished with some parsed output after some wall-clock time. -/
inductive RunOutcome
  | timedOut
  | finished (out : SolverRes) (wall : ℚ)

/-- The parsed outcome a RunOutcome yields (the timeout branch sets
output = TIMEOUT_RESULT). -/
def outcomeOf : RunOutcome → SolverRes
  | RunOutcome.timedOut => SolverRes.timeout
  | RunOutcome.finished out _ => out

/-- Embedding of run_problem: on timeout, elapsed is set to TIMEOUT/len(SOLVERS);
then the Result is built with elapsed kept only for a definitive sat/unsat
answer and otherwise forced to TIMEOUT/len(SOLVERS).  K is len(SOLVERS) and
T is TIMEOUT. -/
def run_problem (K : ℕ) (T : ℚ) (prob : String) (b : RunOutcome) : ResultT :=
  let p : SolverRes × ℚ :=
    match b with
    | RunOutcome.timedOut => (SolverRes.timeout, T / K)
    | RunOutcome.finished out wall => (out, wall)
  { problem := prob
    result := p.1
    elapsed := if p.1 = SolverRes.sat ∨ p.1 = SolverRes.unsat then p.2 else T / K }

/-! ## Reward and the dispatch loop (add_strategy) -/

/-- The per-attempt reward computed in add_strategy:
(1 - (len(SOLVERS) * res.elapsed) / TIMEOUT) ** 4. -/
def reward (K : ℕ) (T : ℚ) (elapsed : ℚ) : ℚ :=
  (1 - ((K : ℚ) * elapsed) / T) ^ 4

/-- Whether a Result counts as a definitive solve in add_strategy's break test. -/
def isSolved (r : ResultT) : Bool :=
  decide (r.result = SolverRes.sat) || decide (r.result = SolverRes.unsat)

/-- Everything the add_strategy loop produces: the rewards list it returns,
the engines it actually attempted in order, the accumulated elapsed time,
the value of res after the loop (none when the loop body never ran), and the
Solved_Problem entry appended to solved (engine, outcome, cumulative time). -/
structure LoopOut (K : ℕ) where
  rewards : List ℚ
  attempted : List (Fin K)
  elapsed : ℚ
  lastRes : Option ResultT
  solvedEntry : Option (Fin K × SolverRes × ℚ)
  deriving DecidableEq, Repr

/-- The loop body of add_strategy: run each engine of solver_list in order,
accumulate elapsed, append the reward, and break on a sat/unsat result.
The external harness is abstracted as run, giving the Result of each engine
on this problem; e0 is the elapsed time accumulated so far. -/
def attemptLoop {K : ℕ} (T : ℚ) (run : Fin K → ResultT) (e0 : ℚ) :
    List (Fin K) → LoopOut K
  | [] => { rewards := [], attempted := [], elapsed := e0
            lastRes := none, solvedEntry := none }
  | i :: rest =>
    let res := run i
    let e1 := e0 + res.elapsed
    let rew := reward K T res.elapsed
    if res.result = SolverRes.sat ∨ res.result = SolverRes.unsat then
      { rewards := [rew], attempted := [i], elapsed := e1
        lastRes := some res, solvedEntry := some (i, res.result, e1) }
    else
      let out := attemptLoop T run e1 rest
      { rewards := rew :: out.rewards
        attempted := i :: out.attempted
        elapsed := out.elapsed
        lastRes := some (out.lastRes.getD res)
        solvedEntry := out.solvedEntry }

/-- Embedding of add_strategy: run the loop, then build the entry appended to
all, which reads res.result; when the loop never ran, res is still None and
that field access raises, modelled as none. -/
def add_strategy {K : ℕ} (T : ℚ) (run : Fin K → ResultT) (order : List (Fin K)) :
    Option (List ℚ × ResultT) :=
  let out := attemptLoop T run 0 order
  match out.lastRes with
  | none => none
  | some r => some (out.rewards, r)

/-! ## The event trace of one round of main -/

/-- Observable events of one round: an engine attempt (run_problem call inside
add_strategy) and a model update (one iteration of the update loop in main). -/
inductive Event (K : ℕ)
  | attemptE (i : Fin K)
  | updateE (i : Fin K)
  deriving DecidableEq, Repr

/-- The order of events in one round of main: first add_strategy performs all
its attempts, then main's for-loop applies one model update per reward,
indexing choices by position, i.e. exactly the attempted prefix of the ranked
order. -/
def roundTrace {K : ℕ} (T : ℚ) (run : Fin K → ResultT) (order : List (Fin K)) :
    List (Event K) :=
  let out := attemptLoop T run 0 order
  out.attempted.map Event.attemptE ++ (order.take out.rewards.length).map Event.updateE

/-! ## Basic facts about the dispatch loop -/

/-- The attempted engines are the prefix of the given order with as many
entries as rewards were produced. -/
theorem attempted_take {K : ℕ} (T : ℚ) (run : Fin K → ResultT) :
    ∀ (order : List (Fin K)) (e0 : ℚ),
      (attemptLoop T run e0 order).attempted
        = order.take (attemptLoop T run e0 order).rewards.length := by
  intro order
  induction order with
  | nil => intro e0; rfl
  | cons i rest ih =>
    intro e0
    by_cases h : (run i).result = SolverRes.sat ∨ (run i).result = SolverRes.unsat
    · simp [attemptLoop, h]
    · simp [attemptLoop, h, ih]

/-- One reward is produced per attempted engine. -/
theorem rewards_length {K : ℕ} (T : ℚ) (run : Fin K → ResultT) :
    ∀ (order : List (Fin K)) (e0 : ℚ),
      (attemptLoop T run e0 order).rewards.length
        = (attemptLoop T run e0 order).attempted.length := by
  intro order
  induction order with
  | nil => intro e0; rfl
  | cons i rest ih =>
    intro e0
    by_cases h : (run i).result = SolverRes.sat ∨ (run i).result = SolverRes.unsat
    · simp [attemptLoop, h]
    · simp [attemptLoop, h, ih]

/-! ## The hybrid LinUCB model state of main -/

/-- Matrix inversion exactly as used by the source: np.linalg.inv applied
fresh at every use.  Over a field this agrees with Mathlib's nonsingular
inverse (and is 0 on singular matrices, which never occur in runs of the
program). -/
def inv' {n : ℕ} (M : Matrix (Fin n) (Fin n) ℚ) : Matrix (Fin n) (Fin n) ℚ :=
  M.det⁻¹ • M.adjugate

theorem inv'_eq {n : ℕ} (M : Matrix (Fin n) (Fin n) ℚ) : inv' M = M⁻¹ := by
  rw [inv', Matrix.inv_def, Ring.inverse_eq_inv]

/-- The mutable model state of main's round loop: the shared matrices A_0, B_0
and per-engine matrices As, Bs, Cs.  K is the portfolio size (len(SOLVERS)),
d the feature dimension (len(PROBES)); column vectors (d, 1) are embedded as
functions Fin d → ℚ. -/
structure HybridState (K d : ℕ) where
  A_0 : Matrix (Fin d) (Fin d) ℚ
  B_0 : Fin d → ℚ
  As : Fin K → Matrix (Fin d) (Fin d) ℚ
  Bs : Fin K → Fin d → ℚ
  Cs : Fin K → Matrix (Fin d) (Fin d) ℚ

/-- Initialization in main: A_0 and every As identity, B_0, Bs, Cs zero. -/
def initState (K d : ℕ) : HybridState K d :=
  { A_0 := 1, B_0 := 0, As := fun _ => 1, Bs := fun _ => 0, Cs := fun _ => 0 }

/-- beta = np.linalg.inv(A_0) @ B_0. -/
def beta {K d : ℕ} (st : HybridState K d) : Fin d → ℚ :=
  inv' st.A_0 *ᵥ st.B_0

/-- thetas of main: np.linalg.inv(As[i]) @ (Bs[i] - Cs[i] @ beta). -/
def theta {K d : ℕ} (st : HybridState K d) (i : Fin K) : Fin d → ℚ :=
  inv' (st.As i) *ᵥ (st.Bs i - st.Cs i *ᵥ beta st)

/-- The ss quadratic form of main, with the source's matrix chains:
point.T @ inv(A_0) @ point
  - 2 * point.T @ inv(A_0) @ Cs[i].T @ inv(As[i]) @ point
  + point.T @ inv(As[i]) @ point
  + point.T @ inv(As[i]) @ Cs[i] @ inv(A_0) @ Cs[i].T @ inv(As[i]) @ point. -/
def sVal {K d : ℕ} (st : HybridState K d) (i : Fin K) (x : Fin d → ℚ) : ℚ :=
  x ⬝ᵥ (inv' st.A_0 *ᵥ x)
    - 2 * (x ⬝ᵥ ((inv' st.A_0 * (st.Cs i)ᵀ * inv' (st.As i)) *ᵥ x))
    + x ⬝ᵥ (inv' (st.As i) *ᵥ x)
    + x ⬝ᵥ ((inv' (st.As i) * st.Cs i * inv' st.A_0 * (st.Cs i)ᵀ * inv' (st.As i)) *ᵥ x)

/-- The prediction part of ps in main: thetas[i].T @ point + beta.T @ point. -/
def predicted {K d : ℕ} (st : HybridState K d) (i : Fin K) (x : Fin d → ℚ) : ℚ :=
  theta st i ⬝ᵥ x + beta st ⬝ᵥ x

/-- The ps entries of main: the LinUCB score
thetas[i].T @ point + beta.T @ point + ALPHA * np.sqrt(ss[i]). -/
noncomputable def score {K d : ℕ} (st : HybridState K d) (i : Fin K) (x : Fin d → ℚ) : ℝ :=
  (predicted st i x : ℝ) + (ALPHA : ℝ) * Real.sqrt ((sVal st i x : ℝ))

/-- choices = np.argsort(ps): all engine indices ordered by ascending score. -/
noncomputable def rank {K d : ℕ} (st : HybridState K d) (x : Fin d → ℚ) : List (Fin K) :=
  List.mergeSort (List.finRange K) (fun i j => decide (score st i x ≤ score st j x))

/-- The body of main's update loop (lines 221-227), for one attempted engine
choice with feature vector x and observed reward rew:
A_0 += Cs[c].T @ inv(As[c]) @ Cs[c]
B_0 += Cs[c].T @ inv(As[c]) @ Bs[c]
As[c] += point @ point.T
Bs[c] += reward * point
Cs[c] += point @ point.T
A_0 += point @ point.T - Cs[c].T @ inv(As[c]) @ Cs[c]
B_0 += reward * point - Cs[c].T @ inv(As[c]) @ Bs[c]. -/
def update {K d : ℕ} (st : HybridState K d) (choice : Fin K) (x : Fin d → ℚ)
    (rew : ℚ) : HybridState K d :=
  let A := st.As choice
  let B := st.Bs choice
  let C := st.Cs choice
  let A_0a := st.A_0 + Cᵀ * inv' A * C
  let B_0a := st.B_0 + (Cᵀ * inv' A) *ᵥ B
  let A2 := A + vecMulVec x x
  let B2 := B + rew • x
  let C2 := C + vecMulVec x x
  { A_0 := A_0a + (vecMulVec x x - C2ᵀ * inv' A2 * C2)
    B_0 := B_0a + (rew • x - (C2ᵀ * inv' A2) *ᵥ B2)
    As := Function.update st.As choice A2
    Bs := Function.update st.Bs choice B2
    Cs := Function.update st.Cs choice C2 }

/-! ## The spec's seven-step description of the update (for claim C1) -/

/-- Spec step 1: A0 += Ci.T Ai.inv Ci, reading the current state. -/
def stepA0pre {K d : ℕ} (i : Fin K) (st : HybridState K d) : HybridState K d :=
  { st with A_0 := st.A_0 + (st.Cs i)ᵀ * inv' (st.As i) * st.Cs i }

/-- Spec step 2: B0 += Ci.T Ai.inv Bi, reading the current state. -/
def stepB0pre {K d : ℕ} (i : Fin K) (st : HybridState K d) : HybridState K d :=
  { st with B_0 := st.B_0 + ((st.Cs i)ᵀ * inv' (st.As i)) *ᵥ st.Bs i }

/-- Spec step 3: Ai += x x.T. -/
def stepA {K d : ℕ} (i : Fin K) (x : Fin d → ℚ) (st : HybridState K d) : HybridState K d :=
  { st with As := Function.update st.As i (st.As i + vecMulVec x x) }

/-- Spec step 4: Bi += reward x. -/
def stepB {K d : ℕ} (i : Fin K) (x : Fin d → ℚ) (rew : ℚ) (st : HybridState K d) :
    HybridState K d :=
  { st with Bs := Function.update st.Bs i (st.Bs i + rew • x) }

/-- Spec step 5: Ci += x x.T. -/
def stepC {K d : ℕ} (i : Fin K) (x : Fin d → ℚ) (st : HybridState K d) : HybridState K d :=
  { st with Cs := Function.update st.Cs i (st.Cs i + vecMulVec x x) }

/-- Spec step 6: A0 += x x.T - Ci.T Ai.inv Ci, reading the state updated by
steps 3 and 5. -/
def stepA0post {K d : ℕ} (i : Fin K) (x : Fin d → ℚ) (st : HybridState K d) :
    HybridState K d :=
  { st with A_0 := st.A_0 + (vecMulVec x x - (st.Cs i)ᵀ * inv' (st.As i) * st.Cs i) }

/-- Spec step 7: B0 += reward x - Ci.T Ai.inv Bi, reading the state updated by
steps 3, 4 and 5. -/
def stepB0post {K d : ℕ} (i : Fin K) (x : Fin d → ℚ) (rew : ℚ) (st : HybridState K d) :
    HybridState K d :=
  { st with B_0 := st.B_0 + (rew • x - ((st.Cs i)ᵀ * inv' (st.As i)) *ᵥ st.Bs i) }

/-- Folding main's update over a sequence of (engine, feature vector, reward)
observations starting from the initial state. -/
def applyUpdates {K d : ℕ} (l : List (Fin K × (Fin d → ℚ) × ℚ)) : HybridState K d :=
  l.foldl (fun st u => update st u.1 u.2.1 u.2.2) (initState K d)

/-! ## Outer-product algebra -/

theorem vecMulVec_mulVec {d : ℕ} (a b v : Fin d → ℚ) :
    vecMulVec a b *ᵥ v = (b ⬝ᵥ v) • a := by
  funext i
  simp only [Matrix.mulVec, Matrix.dotProduct, vecMulVec_apply, Pi.smul_apply,
    smul_eq_mul, Finset.sum_mul]
  exact Finset.sum_congr rfl fun k _ => by ring

theorem mul_vecMulVec {d : ℕ} (M : Matrix (Fin d) (Fin d) ℚ) (a b : Fin d → ℚ) :
    M * vecMulVec a b = vecMulVec (M *ᵥ a) b := by
  ext i j
  simp only [Matrix.mul_apply, vecMulVec_apply, Matrix.mulVec, Matrix.dotProduct,
    Finset.sum_mul]
  exact Finset.sum_congr rfl fun k _ => by ring

theorem vecMulVec_mul {d : ℕ} (a b : Fin d → ℚ) (M : Matrix (Fin d) (Fin d) ℚ) :
    vecMulVec a b * M = vecMulVec a (Mᵀ *ᵥ b) := by
  ext i j
  simp only [Matrix.mul_apply, vecMulVec_apply, Matrix.mulVec, Matrix.dotProduct,
    Matrix.transpose_apply, Finset.mul_sum]
  exact Finset.sum_congr rfl fun k _ => by ring

theorem vecMulVec_mul_vecMulVec {d : ℕ} (a b c e : Fin d → ℚ) :
    vecMulVec a b * vecMulVec c e = (b ⬝ᵥ c) • vecMulVec a e := by
  ext i j
  simp only [Matrix.mul_apply, vecMulVec_apply, Matrix.smul_apply, smul_eq_mul,
    Matrix.dotProduct, Finset.sum_mul]
  exact Finset.sum_congr rfl fun k _ => by ring

theorem transpose_vecMulVec {d : ℕ} (a b : Fin d → ℚ) :
    (vecMulVec a b)ᵀ = vecMulVec b a := by
  ext i j
  simp only [Matrix.transpose_apply, vecMulVec_apply]
  ring

/-! ## Symmetric positive definiteness over ℚ -/

/-- Symmetric positive-definite rational matrix. -/
def PosDefQ {d : ℕ} (M : Matrix (Fin d) (Fin d) ℚ) : Prop :=
  Mᵀ = M ∧ ∀ v : Fin d → ℚ, v ≠ 0 → 0 < v ⬝ᵥ (M *ᵥ v)

/-- Symmetric positive-semidefinite rational matrix. -/
def PosSemidefQ {d : ℕ} (M : Matrix (Fin d) (Fin d) ℚ) : Prop :=
  Mᵀ = M ∧ ∀ v : Fin d → ℚ, 0 ≤ v ⬝ᵥ (M *ᵥ v)

theorem dotProduct_self_nonneg {d : ℕ} (v : Fin d → ℚ) : 0 ≤ v ⬝ᵥ v := by
  unfold Matrix.dotProduct
  exact Finset.sum_nonneg fun i _ => mul_self_nonneg (v i)

theorem dotProduct_self_pos {d : ℕ} {v : Fin d → ℚ} (hv : v ≠ 0) : 0 < v ⬝ᵥ v :=
  lt_of_le_of_ne (dotProduct_self_nonneg v)
    fun h => hv (Matrix.dotProduct_self_eq_zero.mp h.symm)

theorem posDefQ_one {d : ℕ} : PosDefQ (1 : Matrix (Fin d) (Fin d) ℚ) := by
  refine ⟨Matrix.transpose_one, fun v hv => ?_⟩
  rw [Matrix.one_mulVec]
  exact dotProduct_self_pos hv

theorem posSemidefQ_vecMulVec_self {d : ℕ} (x : Fin d → ℚ) :
    PosSemidefQ (vecMulVec x x) := by
  refine ⟨transpose_vecMulVec x x, fun v => ?_⟩
  rw [vecMulVec_mulVec, Matrix.dotProduct_smul, smul_eq_mul, Matrix.dotProduct_comm]
  exact mul_self_nonneg _

theorem PosSemidefQ.smul {d : ℕ} {M : Matrix (Fin d) (Fin d) ℚ} {c : ℚ}
    (hM : PosSemidefQ M) (hc : 0 ≤ c) : PosSemidefQ (c • M) := by
  refine ⟨by rw [Matrix.transpose_smul, hM.1], fun v => ?_⟩
  rw [Matrix.smul_mulVec_assoc, Matrix.dotProduct_smul, smul_eq_mul]
  exact mul_nonneg hc (hM.2 v)

theorem PosDefQ.add_posSemidefQ {d : ℕ} {M N : Matrix (Fin d) (Fin d) ℚ}
    (hM : PosDefQ M) (hN : PosSemidefQ N) : PosDefQ (M + N) := by
  refine ⟨by rw [Matrix.transpose_add, hM.1, hN.1], fun v hv => ?_⟩
  rw [Matrix.add_mulVec, Matrix.dotProduct_add]
  exact add_pos_of_pos_of_nonneg (hM.2 v hv) (hN.2 v)

theorem PosDefQ.det_isUnit {d : ℕ} {M : Matrix (Fin d) (Fin d) ℚ}
    (hM : PosDefQ M) : IsUnit M.det := by
  rw [isUnit_iff_ne_zero]
  intro hdet
  obtain ⟨v, hv, hMv⟩ := Matrix.exists_mulVec_eq_zero_iff.mpr hdet
  have := hM.2 v hv
  rw [hMv, Matrix.dotProduct_zero] at this
  exact lt_irrefl 0 this

theorem PosDefQ.mulVec_ne_zero {d : ℕ} {M : Matrix (Fin d) (Fin d) ℚ}
    (hM : PosDefQ M) {v : Fin d → ℚ} (hv : v ≠ 0) : M *ᵥ v ≠ 0 := by
  intro h
  have := hM.2 v hv
  rw [h, Matrix.dotProduct_zero] at this
  exact lt_irrefl 0 this

theorem PosDefQ.inv {d : ℕ} {M : Matrix (Fin d) (Fin d) ℚ}
    (hM : PosDefQ M) : PosDefQ M⁻¹ := by
  have hdet := hM.det_isUnit
  constructor
  · rw [Matrix.transpose_nonsing_inv, hM.1]
  · intro v hv
    have hMw : M *ᵥ (M⁻¹ *ᵥ v) = v := by
      rw [Matrix.mulVec_mulVec, Matrix.mul_nonsing_inv M hdet, Matrix.one_mulVec]
    have hw : M⁻¹ *ᵥ v ≠ 0 := by
      intro h
      rw [h, Matrix.mulVec_zero] at hMw
      exact hv hMw.symm
    have hpos := hM.2 _ hw
    rw [hMw] at hpos
    calc (0 : ℚ) < (M⁻¹ *ᵥ v) ⬝ᵥ v := hpos
    _ = v ⬝ᵥ (M⁻¹ *ᵥ v) := Matrix.dotProduct_comm _ _

theorem PosDefQ.posSemidefQ {d : ℕ} {M : Matrix (Fin d) (Fin d) ℚ}
    (hM : PosDefQ M) : PosSemidefQ M := by
  refine ⟨hM.1, fun v => ?_⟩
  by_cases hv : v = 0
  · subst hv; rw [Matrix.zero_dotProduct]
  · exact le_of_lt (hM.2 v hv)

/-- Sherman-Morrison for a symmetric invertible matrix and a rank-one
update by an outer product of a vector with itself. -/
theorem sherman_morrison {d : ℕ} (A : Matrix (Fin d) (Fin d) ℚ) (x : Fin d → ℚ)
    (hsym : Aᵀ = A) (hdet : IsUnit A.det)
    (hc : (1 + x ⬝ᵥ (A⁻¹ *ᵥ x)) ≠ 0) :
    (A + vecMulVec x x)⁻¹
      = A⁻¹ - (1 + x ⬝ᵥ (A⁻¹ *ᵥ x))⁻¹ • vecMulVec (A⁻¹ *ᵥ x) (A⁻¹ *ᵥ x) := by
  have hAiT : (A⁻¹)ᵀ = A⁻¹ := by rw [Matrix.transpose_nonsing_inv, hsym]
  set u : Fin d → ℚ := A⁻¹ *ᵥ x with hu
  set c : ℚ := 1 + x ⬝ᵥ u with hcdef
  set w : ℚ := x ⬝ᵥ u with hw
  apply Matrix.inv_eq_right_inv
  have hAu : A *ᵥ u = x := by
    rw [hu, Matrix.mulVec_mulVec, Matrix.mul_nonsing_inv A hdet, Matrix.one_mulVec]
  have e1 : A * (c⁻¹ • vecMulVec u u) = c⁻¹ • vecMulVec x u := by
    rw [Matrix.mul_smul, mul_vecMulVec, hAu]
  have e2 : vecMulVec x x * A⁻¹ = vecMulVec x u := by
    rw [vecMulVec_mul, hAiT]
  have e3 : vecMulVec x x * (c⁻¹ • vecMulVec u u)
      = (c⁻¹ * w) • vecMulVec x u := by
    rw [Matrix.mul_smul, vecMulVec_mul_vecMulVec, ← hw, smul_smul]
  have hzero : (1 : ℚ) - c⁻¹ - c⁻¹ * w = 0 := by
    have h1 : c⁻¹ * (1 + w) = 1 := by rw [← hcdef]; exact inv_mul_cancel₀ hc
    rw [mul_add, mul_one] at h1
    linarith
  calc (A + vecMulVec x x) * (A⁻¹ - c⁻¹ • vecMulVec u u)
      = A * A⁻¹ - A * (c⁻¹ • vecMulVec u u)
          + (vecMulVec x x * A⁻¹ - vecMulVec x x * (c⁻¹ • vecMulVec u u)) := by
        rw [add_mul, mul_sub, mul_sub]
    _ = 1 - c⁻¹ • vecMulVec x u
          + (vecMulVec x u - (c⁻¹ * w) • vecMulVec x u) := by
        rw [Matrix.mul_nonsing_inv A hdet, e1, e2, e3]
    _ = 1 + ((1 - c⁻¹ - c⁻¹ * w) • vecMulVec x u) := by
        rw [sub_smul, sub_smul, one_smul]; abel
    _ = 1 := by rw [hzero, zero_smul, add_zero]

/-- For a symmetric invertible A, the global-model correction term
(A - 1)ᵀ A⁻¹ (A - 1) collapses to A - 1 - 1 + A⁻¹. -/
theorem sandwich {d : ℕ} {A : Matrix (Fin d) (Fin d) ℚ}
    (hsym : Aᵀ = A) (hdet : IsUnit A.det) :
    (A - 1)ᵀ * A⁻¹ * (A - 1) = A - 1 - 1 + A⁻¹ := by
  have h1 : (A - 1)ᵀ = A - 1 := by rw [Matrix.transpose_sub, Matrix.transpose_one, hsym]
  have h2 : (A - 1) * A⁻¹ = 1 - A⁻¹ := by
    rw [sub_mul, Matrix.mul_nonsing_inv A hdet, one_mul]
  rw [h1, h2, sub_mul, one_mul, mul_sub, Matrix.nonsing_inv_mul A hdet, mul_one]
  abel

/-- The invariant of main's model state: the shared A_0 and every As are
symmetric positive-definite, and every Cs equals As - identity (both
accumulate the same outer products from the same initialization). -/
def Good {K d : ℕ} (st : HybridState K d) : Prop :=
  PosDefQ st.A_0 ∧ ∀ i, PosDefQ (st.As i) ∧ st.Cs i = st.As i - 1

theorem good_init (K d : ℕ) : Good (initState K d) := by
  refine ⟨posDefQ_one, fun i => ⟨posDefQ_one, ?_⟩⟩
  simp [initState]

theorem good_update {K d : ℕ} {st : HybridState K d} (h : Good st)
    (i : Fin K) (x : Fin d → ℚ) (r : ℚ) : Good (update st i x r) := by
  obtain ⟨hA0, hlocal⟩ := h
  obtain ⟨hAi, hCi⟩ := hlocal i
  set A : Matrix (Fin d) (Fin d) ℚ := st.As i with hA
  set X : Matrix (Fin d) (Fin d) ℚ := vecMulVec x x with hX
  have hXpsd : PosSemidefQ X := posSemidefQ_vecMulVec_self x
  have hA2 : PosDefQ (A + X) := hAi.add_posSemidefQ hXpsd
  have hdet : IsUnit A.det := hAi.det_isUnit
  have hdet2 : IsUnit (A + X).det := hA2.det_isUnit
  have hC2 : st.Cs i + X = A + X - 1 := by rw [hCi]; abel
  set u : Fin d → ℚ := A⁻¹ *ᵥ x with hu
  have hcpos : 0 < 1 + x ⬝ᵥ u := by
    have hnn : 0 ≤ x ⬝ᵥ u := hAi.inv.posSemidefQ.2 x
    linarith
  have hsm := sherman_morrison A x hAi.1 hdet (ne_of_gt hcpos)
  have hA0new : (update st i x r).A_0
      = st.A_0 + (1 + x ⬝ᵥ u)⁻¹ • vecMulVec u u := by
    show st.A_0 + (st.Cs i)ᵀ * inv' A * st.Cs i
        + (X - (st.Cs i + X)ᵀ * inv' (A + X) * (st.Cs i + X))
        = st.A_0 + (1 + x ⬝ᵥ u)⁻¹ • vecMulVec u u
    rw [inv'_eq, inv'_eq, hC2, hCi, sandwich hAi.1 hdet, sandwich hA2.1 hdet2, hsm]
    abel
  refine ⟨?_, fun j => ?_⟩
  · rw [hA0new]
    exact hA0.add_posSemidefQ
      ((posSemidefQ_vecMulVec_self u).smul (le_of_lt (inv_pos.mpr hcpos)))
  · by_cases hj : j = i
    · subst hj
      constructor
      · show PosDefQ (Function.update st.As j (A + X) j)
        rw [Function.update_same]
        exact hA2
      · show Function.update st.Cs j (st.Cs j + X) j
            = Function.update st.As j (A + X) j - 1
        rw [Function.update_same, Function.update_same, hC2]
    · constructor
      · show PosDefQ (Function.update st.As i (A + X) j)
        rw [Function.update_noteq hj]
        exact (hlocal j).1
      · show Function.update st.Cs i (st.Cs i + X) j
            = Function.update st.As i (A + X) j - 1
        rw [Function.update_noteq hj, Function.update_noteq hj]
        exact (hlocal j).2

theorem good_applyUpdates {K d : ℕ} (l : List (Fin K × (Fin d → ℚ) × ℚ)) :
    Good (applyUpdates l) := by
  have main : ∀ (l : List (Fin K × (Fin d → ℚ) × ℚ)) (st : HybridState K d),
      Good st → Good (l.foldl (fun st u => update st u.1 u.2.1 u.2.2) st) := by
    intro l
    induction l with
    | nil => intro st h; exact h
    | cons u rest ih =>
      intro st h
      exact ih _ (good_update h u.1 u.2.1 u.2.2)
  exact main l _ (good_init K d)

/-! ## Claim theorems -/

/-- C5: the reward of an attempt with portfolio size K, total budget T and
elapsed time e in [0, T/K] is (1 - K e / T)^4; it is monotonically
non-increasing in e, bounded in [0, 1] on that range, equals 0 at the full
per-attempt budget T/K and equals 1 at an instant solve. -/
theorem c5_reward_props (K : ℕ) (T e₁ e₂ : ℚ) (hK : 0 < K) (hT : 0 < T)
    (h0 : 0 ≤ e₁) (h12 : e₁ ≤ e₂) (h2 : e₂ ≤ T / K) :
    reward K T e₂ ≤ reward K T e₁ ∧ 0 ≤ reward K T e₂ ∧ reward K T e₁ ≤ 1
    ∧ reward K T (T / K) = 0 ∧ reward K T 0 = 1 := by
  have hKq : (0 : ℚ) < (K : ℚ) := by exact_mod_cast hK
  have ht2nn : 0 ≤ 1 - (K : ℚ) * e₂ / T := by
    have hKe : (K : ℚ) * e₂ ≤ T := by
      have := (le_div_iff₀ hKq).mp h2
      linarith
    have : (K : ℚ) * e₂ / T ≤ 1 := by rw [div_le_one hT]; exact hKe
    linarith
  have hmono : 1 - (K : ℚ) * e₂ / T ≤ 1 - (K : ℚ) * e₁ / T := by
    have : (K : ℚ) * e₁ / T ≤ (K : ℚ) * e₂ / T := by
      apply (div_le_div_iff_of_pos_right hT).mpr
      exact mul_le_mul_of_nonneg_left h12 (le_of_lt hKq)
    linarith
  have ht1le : 1 - (K : ℚ) * e₁ / T ≤ 1 := by
    have : 0 ≤ (K : ℚ) * e₁ / T := div_nonneg (mul_nonneg (le_of_lt hKq) h0) (le_of_lt hT)
    linarith
  refine ⟨pow_le_pow_left₀ ht2nn hmono 4, pow_nonneg ht2nn 4,
    pow_le_one₀ (le_trans ht2nn hmono) ht1le, ?_, by simp [reward]⟩
  rw [reward, show (K : ℚ) * (T / K) / T = 1 by field_simp]
  norm_num

/-- Witness for C5 at the program's constants K = 4, T = 60 with
elapsed times 6 and 15 seconds. -/
theorem c5_reward_props_witness :
    reward 4 60 15 ≤ reward 4 60 6 ∧ 0 ≤ reward 4 60 15 ∧ reward 4 60 6 ≤ 1
    ∧ reward 4 60 ((60 : ℚ) / ((4 : ℕ) : ℚ)) = 0 ∧ reward 4 60 0 = 1 :=
  c5_reward_props 4 60 6 15 (by norm_num) (by norm_num) (by norm_num)
    (by norm_num) (by norm_num)

/-- C8: the dispatch loop attempts exactly the engines of the ranked order up
to and including the first definitive solve (sat or unsat); every non-solving
attempt (error, timeout, unknown) contributes a reward and the loop proceeds,
running through the full order when nothing solves; and one reward is produced
per attempted engine. -/
theorem c8_stop_on_solve {K : ℕ} (T : ℚ) (run : Fin K → ResultT)
    (order : List (Fin K)) :
    (attemptLoop T run 0 order).attempted
      = order.takeWhile (fun i => !(isSolved (run i)))
        ++ (order.dropWhile (fun i => !(isSolved (run i)))).take 1
    ∧ (attemptLoop T run 0 order).rewards.length
      = (attemptLoop T run 0 order).attempted.length := by
  refine ⟨?_, rewards_length T run order 0⟩
  have main : ∀ (order : List (Fin K)) (e0 : ℚ),
      (attemptLoop T run e0 order).attempted
        = order.takeWhile (fun i => !(isSolved (run i)))
          ++ (order.dropWhile (fun i => !(isSolved (run i)))).take 1 := by
    intro order
    induction order with
    | nil => intro e0; rfl
    | cons i rest ih =>
      intro e0
      by_cases h : (run i).result = SolverRes.sat ∨ (run i).result = SolverRes.unsat
      · have hb : isSolved (run i) = true := by
          rcases h with h | h <;> simp [isSolved, h]
        simp [attemptLoop, h, List.takeWhile_cons, List.dropWhile_cons, hb]
      · have hb : isSolved (run i) = false := by
          push_neg at h
          simp [isSolved, h.1, h.2]
        push_neg at h
        simp [attemptLoop, h.1, h.2, List.takeWhile_cons, List.dropWhile_cons, hb,
          ih (e0 + (run i).elapsed)]
  exact main order 0

/-- C9: whenever the parsed outcome of an attempt is not a definitive sat or
unsat (timeout, unknown or error), run_problem records the full per-attempt
budget TIMEOUT/len(SOLVERS) as the elapsed time, whatever the wall-clock time
was, and the reward computed from that recorded time is exactly 0. -/
theorem c9_nonsolve_reward_zero (b : RunOutcome) (prob : String)
    (h1 : outcomeOf b ≠ SolverRes.sat) (h2 : outcomeOf b ≠ SolverRes.unsat) :
    (run_problem SOLVERS.length TIMEOUT prob b).elapsed = TIMEOUT / SOLVERS.length
    ∧ reward SOLVERS.length TIMEOUT
        ((run_problem SOLVERS.length TIMEOUT prob b).elapsed) = 0 := by
  have he : (run_problem SOLVERS.length TIMEOUT prob b).elapsed
      = TIMEOUT / SOLVERS.length := by
    cases b with
    | timedOut => simp [run_problem]
    | finished out wall =>
      simp only [outcomeOf] at h1 h2
      simp [run_problem, h1, h2]
  refine ⟨he, ?_⟩
  rw [he]
  norm_num [reward, TIMEOUT, SOLVERS]

/-- Witness for C9: an unknown answer after 3 wall-clock seconds is recorded
with the full 15-second per-attempt budget and reward 0. -/
theorem c9_nonsolve_reward_zero_witness :
    (run_problem SOLVERS.length TIMEOUT "p"
        (RunOutcome.finished SolverRes.unknown 3)).elapsed = TIMEOUT / SOLVERS.length
    ∧ reward SOLVERS.length TIMEOUT
        ((run_problem SOLVERS.length TIMEOUT "p"
          (RunOutcome.finished SolverRes.unknown 3)).elapsed) = 0 :=
  c9_nonsolve_reward_zero (RunOutcome.finished SolverRes.unknown 3) "p"
    (by decide) (by decide)

/-- C4 (amended): in each round all attempts of the ranked order are executed
first inside add_strategy, and only afterwards does main apply the model
updates, once per attempted engine and in the order attempted; the updates are
deferred to the end of the round rather than interleaved with the attempts. -/
theorem c4_updates_deferred {K : ℕ} (T : ℚ) (run : Fin K → ResultT)
    (order : List (Fin K)) :
    roundTrace T run order
      = ((attemptLoop T run 0 order).attempted).map Event.attemptE
        ++ ((attemptLoop T run 0 order).attempted).map Event.updateE := by
  simp only [roundTrace]
  rw [← attempted_take]

/-- Counterexample to C4 as stated: with the program's portfolio of four
engines and a round in which every attempt returns unknown, the second
engine's attempt occurs strictly before the first engine's model update, so
updates are not applied before the next engine in the order is attempted. -/
theorem c4_counterexample :
    roundTrace TIMEOUT (fun _ => ⟨"p", SolverRes.unknown, 15⟩)
        ([0, 1, 2, 3] : List (Fin 4))
      = [Event.attemptE 0, Event.attemptE 1, Event.attemptE 2, Event.attemptE 3,
         Event.updateE 0, Event.updateE 1, Event.updateE 2, Event.updateE 3]
    ∧ (roundTrace TIMEOUT (fun _ => ⟨"p", SolverRes.unknown, 15⟩)
          ([0, 1, 2, 3] : List (Fin 4))).indexOf (Event.attemptE 1)
      < (roundTrace TIMEOUT (fun _ => ⟨"p", SolverRes.unknown, 15⟩)
          ([0, 1, 2, 3] : List (Fin 4))).indexOf (Event.updateE 0) := by
  constructor
  · rfl
  · decide

/-- C7 (amended): the configuration is hardcoded in the source and satisfies
the validity conditions (four solvers, eleven probes, positive ALPHA); no
configuration validation exists, and with an empty portfolio the round is not
rejected up front: the dispatch loop executes and add_strategy fails mid-round
on the missing last result. -/
theorem c7_config_hardcoded :
    SOLVERS.length = 4 ∧ PROBES.length = 11 ∧ 0 < ALPHA
    ∧ ∀ run : Fin 0 → ResultT, add_strategy TIMEOUT run [] = none := by
  refine ⟨rfl, rfl, by norm_num [ALPHA], fun run => rfl⟩

/-- Counterexample to C7 as stated: with an empty portfolio the per-round
dispatch runs (the attempt loop executes, producing an empty trace) and then
fails inside the round; nothing rejects the configuration before the round. -/
theorem c7_counterexample :
    add_strategy TIMEOUT (fun i => i.elim0) ([] : List (Fin 0)) = none
    ∧ roundTrace TIMEOUT (fun i => i.elim0) ([] : List (Fin 0)) = [] := by
  exact ⟨rfl, rfl⟩

/-- C6: starting from the identity/zero initialization and after any sequence
of updates with arbitrary engines, feature vectors and rewards, the shared
matrix A_0 and every per-engine matrix As i are symmetric positive-definite,
hence invertible. -/
theorem c6_posdef_invariant {K d : ℕ} (l : List (Fin K × (Fin d → ℚ) × ℚ)) :
    PosDefQ (applyUpdates l).A_0
    ∧ (∀ i, PosDefQ ((applyUpdates (K := K) (d := d) l).As i))
    ∧ IsUnit (applyUpdates (K := K) (d := d) l).A_0.det
    ∧ ∀ i, IsUnit ((applyUpdates (K := K) (d := d) l).As i).det := by
  obtain ⟨h1, h2⟩ := good_applyUpdates l
  exact ⟨h1, fun i => (h2 i).1, h1.det_isUnit, fun i => ((h2 i).1).det_isUnit⟩

/-- C1: main's update body is exactly the seven rank-one corrections in the
spec's order: the two global corrections reading the pre-update local
matrices, then the three local updates, then the two global corrections
reading the new local matrices; and in the K=2, d=2 scenario with x = [1, 0],
elapsed 2 s of a 10 s budget, the reward is (0.6)^4 = 0.1296 and one update of
engine 0 from the initial state produces exactly the matrices the formulas
give. -/
theorem c1_update_rule :
    (∀ (K d : ℕ) (st : HybridState K d) (i : Fin K) (x : Fin d → ℚ) (r : ℚ),
      update st i x r
        = stepB0post i x r (stepA0post i x (stepC i x (stepB i x r
            (stepA i x (stepB0pre i (stepA0pre i st)))))))
    ∧ reward 2 10 2 = 0.1296
    ∧ (update (initState 2 2) 0 ![1, 0] (81 / 625)).A_0 = !![3/2, 0; 0, 1]
    ∧ (update (initState 2 2) 0 ![1, 0] (81 / 625)).As 0 = !![2, 0; 0, 1]
    ∧ (update (initState 2 2) 0 ![1, 0] (81 / 625)).Cs 0 = !![1, 0; 0, 0]
    ∧ (update (initState 2 2) 0 ![1, 0] (81 / 625)).Bs 0 = ![81/625, 0]
    ∧ (update (initState 2 2) 0 ![1, 0] (81 / 625)).B_0 = ![81/1250, 0] := by
  have hX : vecMulVec (![1, 0] : Fin 2 → ℚ) ![1, 0] = !![1, 0; 0, 0] := by
    ext i j
    fin_cases i <;> fin_cases j <;> simp [vecMulVec_apply]
  have hXT : (!![1, 0; 0, 0] : Matrix (Fin 2) (Fin 2) ℚ)ᵀ = !![1, 0; 0, 0] := by
    ext i j
    fin_cases i <;> fin_cases j <;> simp
  have hA2 : (1 : Matrix (Fin 2) (Fin 2) ℚ) + !![1, 0; 0, 0] = !![2, 0; 0, 1] := by
    rw [Matrix.one_fin_two]
    ext i j
    fin_cases i <;> fin_cases j <;> simp <;> norm_num
  have hInv : inv' (!![2, 0; 0, 1] : Matrix (Fin 2) (Fin 2) ℚ) = !![1/2, 0; 0, 1] := by
    rw [inv', Matrix.det_fin_two, Matrix.adjugate_fin_two]
    ext i j
    fin_cases i <;> fin_cases j <;> simp
  have hProd2 : (!![1, 0; 0, 0] : Matrix (Fin 2) (Fin 2) ℚ) * !![1/2, 0; 0, 1]
      = !![1/2, 0; 0, 0] := by
    rw [Matrix.mul_fin_two]
    norm_num
  have hProd3 : (!![1/2, 0; 0, 0] : Matrix (Fin 2) (Fin 2) ℚ) * !![1, 0; 0, 0]
      = !![1/2, 0; 0, 0] := by
    rw [Matrix.mul_fin_two]
    norm_num
  have hB2 : (81 / 625 : ℚ) • (![1, 0] : Fin 2 → ℚ) = ![81/625, 0] := by
    funext i
    fin_cases i <;> simp
  have hMv : (!![1/2, 0; 0, 0] : Matrix (Fin 2) (Fin 2) ℚ) *ᵥ ![81/625, 0]
      = ![81/1250, 0] := by
    funext i
    fin_cases i <;> simp [Matrix.mulVec, Matrix.dotProduct, Fin.sum_univ_two] <;> norm_num
  refine ⟨?_, by norm_num [reward], ?_, ?_, ?_, ?_, ?_⟩
  · intro K d st i x r
    obtain ⟨a0, b0, as, bs, cs⟩ := st
    simp [update, stepA0pre, stepB0pre, stepA, stepB, stepC, stepA0post, stepB0post,
      Function.update_same]
  · show (1 : Matrix (Fin 2) (Fin 2) ℚ) + (0 : Matrix (Fin 2) (Fin 2) ℚ)ᵀ * inv' 1 * 0
        + (vecMulVec ![1, 0] ![1, 0]
            - ((0 : Matrix (Fin 2) (Fin 2) ℚ) + vecMulVec ![1, 0] ![1, 0])ᵀ
              * inv' ((1 : Matrix (Fin 2) (Fin 2) ℚ) + vecMulVec ![1, 0] ![1, 0])
              * ((0 : Matrix (Fin 2) (Fin 2) ℚ) + vecMulVec ![1, 0] ![1, 0]))
        = !![3/2, 0; 0, 1]
    simp only [Matrix.transpose_zero, zero_mul, mul_zero, add_zero, zero_add]
    rw [hX, hXT, hA2, hInv, hProd2, hProd3, Matrix.one_fin_two]
    ext i j
    fin_cases i <;> fin_cases j <;>
      simp [Matrix.add_apply, Matrix.sub_apply] <;> norm_num
  · show Function.update (initState 2 2).As 0
        ((initState 2 2).As 0 + vecMulVec ![1, 0] ![1, 0]) 0 = !![2, 0; 0, 1]
    rw [Function.update_same]
    show (1 : Matrix (Fin 2) (Fin 2) ℚ) + vecMulVec ![1, 0] ![1, 0] = !![2, 0; 0, 1]
    rw [hX, hA2]
  · show Function.update (initState 2 2).Cs 0
        ((initState 2 2).Cs 0 + vecMulVec ![1, 0] ![1, 0]) 0 = !![1, 0; 0, 0]
    rw [Function.update_same]
    show (0 : Matrix (Fin 2) (Fin 2) ℚ) + vecMulVec ![1, 0] ![1, 0] = !![1, 0; 0, 0]
    rw [zero_add, hX]
  · show Function.update (initState 2 2).Bs 0
        ((initState 2 2).Bs 0 + (81 / 625 : ℚ) • ![1, 0]) 0 = ![81/625, 0]
    rw [Function.update_same]
    show (0 : Fin 2 → ℚ) + (81 / 625 : ℚ) • ![1, 0] = ![81/625, 0]
    rw [zero_add, hB2]
  · show ((0 : Fin 2 → ℚ) + ((0 : Matrix (Fin 2) (Fin 2) ℚ)ᵀ * inv' 1) *ᵥ (0 : Fin 2 → ℚ))
        + ((81 / 625 : ℚ) • ![1, 0]
            - (((0 : Matrix (Fin 2) (Fin 2) ℚ) + vecMulVec ![1, 0] ![1, 0])ᵀ
                * inv' ((1 : Matrix (Fin 2) (Fin 2) ℚ) + vecMulVec ![1, 0] ![1, 0]))
              *ᵥ ((0 : Fin 2 → ℚ) + (81 / 625 : ℚ) • ![1, 0]))
        = ![81/1250, 0]
    simp only [Matrix.mulVec_zero, add_zero, zero_add]
    rw [hB2, hX, hXT, hA2, hInv, hProd2, hMv]
    funext i
    fin_cases i <;> simp [Pi.sub_apply] <;> norm_num

/-! ## The spec's phrasing of the score (for claim C2) -/

/-- Spec phrasing: beta = A0⁻¹ B0, with Mathlib's matrix inverse. -/
noncomputable def betaSpec {K d : ℕ} (st : HybridState K d) : Fin d → ℚ :=
  st.A_0⁻¹ *ᵥ st.B_0

/-- Spec phrasing: theta_i = A_i⁻¹ (B_i − C_i beta). -/
noncomputable def thetaSpec {K d : ℕ} (st : HybridState K d) (i : Fin K) : Fin d → ℚ :=
  (st.As i)⁻¹ *ᵥ (st.Bs i - st.Cs i *ᵥ betaSpec st)

/-- Spec phrasing of the variance quadratic form:
s_i = xᵀA0⁻¹x − 2 xᵀA0⁻¹C_iᵀA_i⁻¹x + xᵀA_i⁻¹x + xᵀA_i⁻¹C_iA0⁻¹C_iᵀA_i⁻¹x,
written as successive matrix-vector applications. -/
noncomputable def sSpec {K d : ℕ} (st : HybridState K d) (i : Fin K) (x : Fin d → ℚ) : ℚ :=
  x ⬝ᵥ (st.A_0⁻¹ *ᵥ x)
    - 2 * (x ⬝ᵥ (st.A_0⁻¹ *ᵥ ((st.Cs i)ᵀ *ᵥ ((st.As i)⁻¹ *ᵥ x))))
    + x ⬝ᵥ ((st.As i)⁻¹ *ᵥ x)
    + x ⬝ᵥ ((st.As i)⁻¹ *ᵥ (st.Cs i *ᵥ (st.A_0⁻¹ *ᵥ ((st.Cs i)ᵀ *ᵥ ((st.As i)⁻¹ *ᵥ x)))))

/-- Spec phrasing of the score: theta_iᵀx + betaᵀx + α sqrt(s_i). -/
noncomputable def scoreSpec {K d : ℕ} (st : HybridState K d) (i : Fin K)
    (x : Fin d → ℚ) : ℝ :=
  ((thetaSpec st i ⬝ᵥ x + betaSpec st ⬝ᵥ x : ℚ) : ℝ)
    + (ALPHA : ℝ) * Real.sqrt ((sSpec st i x : ℚ) : ℝ)

/-- C2: the score computed by main equals the spec's formula
theta_iᵀx + betaᵀx + α sqrt(s_i) with beta = A0⁻¹B0,
theta_i = A_i⁻¹(B_i − C_i beta) and s_i the variance quadratic form, the
inverses being taken fresh from the current matrices; and the confidence
coefficient ALPHA is a fixed positive constant. -/
theorem c2_score_formula :
    (∀ (K d : ℕ) (st : HybridState K d) (i : Fin K) (x : Fin d → ℚ),
      score st i x = scoreSpec st i x) ∧ 0 < ALPHA := by
  constructor
  · intro K d st i x
    have hs : sVal st i x = sSpec st i x := by
      simp [sVal, sSpec, inv'_eq, Matrix.mulVec_mulVec, Matrix.mul_assoc]
    have hp : predicted st i x = thetaSpec st i ⬝ᵥ x + betaSpec st ⬝ᵥ x := by
      simp [predicted, theta, beta, thetaSpec, betaSpec, inv'_eq]
    rw [score, scoreSpec, hp, hs]
  · norm_num [ALPHA]

/-- C3: for any model state and feature vector, the ranking is a permutation
of all K engine indices, each appearing exactly once, ordered ascending by
score. -/
theorem c3_rank_perm {K d : ℕ} (st : HybridState K d) (x : Fin d → ℚ) :
    (rank st x).Perm (List.finRange K)
    ∧ (∀ i : Fin K, (rank st x).count i = 1)
    ∧ (rank st x).Pairwise (fun i j => score st i x ≤ score st j x) := by
  have hperm : (rank st x).Perm (List.finRange K) := List.mergeSort_perm _ _
  refine ⟨hperm, ?_, ?_⟩
  · intro i
    rw [hperm.count_eq]
    exact List.count_eq_one_of_mem (List.nodup_finRange K) (List.mem_finRange i)
  · have htrans : ∀ a b c : Fin K,
        (fun i j => decide (score st i x ≤ score st j x)) a b = true →
        (fun i j => decide (score st i x ≤ score st j x)) b c = true →
        (fun i j => decide (score st i x ≤ score st j x)) a c = true := by
      intro a b c hab hbc
      simp only [decide_eq_true_eq] at hab hbc ⊢
      exact le_trans hab hbc
    have htotal : ∀ a b : Fin K,
        ((fun i j => decide (score st i x ≤ score st j x)) a b
          || (fun i j => decide (score st i x ≤ score st j x)) b a) = true := by
      intro a b
      simp only [Bool.or_eq_true, decide_eq_true_eq]
      exact le_total _ _
    have hsorted := List.sorted_mergeSort htrans htotal (List.finRange K)
    exact hsorted.imp fun h => by simpa using h

/-- Counterexample to C10 as stated: with the program's dimensions (four
engines, eleven probes) and the zero feature vector, updating engine 0 with
reward 1 changes nothing observable: the score re-queried afterwards is
unchanged even though the reward 1 differs from the pre-update prediction 0. -/
theorem c10_counterexample :
    score (update (initState 4 11) 0 0 1) 0 0 = score (initState 4 11) 0 0
    ∧ (1 : ℚ) ≠ predicted (initState 4 11) 0 0 := by
  have hz : ∀ (K d : ℕ) (st : HybridState K d) (i : Fin K), score st i 0 = 0 := by
    intro K d st i
    simp [score, predicted, sVal, Matrix.dotProduct_zero, Matrix.zero_dotProduct,
      Matrix.mulVec_zero, Real.sqrt_zero]
  constructor
  · rw [hz, hz]
  · have : predicted (initState 4 11) 0 0 = 0 := by
      simp [predicted, Matrix.dotProduct_zero]
    rw [this]
    norm_num

/-- C10 (amended): an update is a genuine change of the model whenever the
feature vector is nonzero - the local matrix As i strictly changes - but with
a zero feature vector the update leaves the score unchanged for every reward,
so an unchanged score does not imply that the reward matched the pre-update
prediction. -/
theorem c10_update_not_noop :
    (∀ (K d : ℕ) (st : HybridState K d) (i : Fin K) (x : Fin d → ℚ) (r : ℚ),
      x ≠ 0 → (update st i x r).As i ≠ st.As i)
    ∧ (∀ (K d : ℕ) (st : HybridState K d) (i : Fin K) (r : ℚ),
        score (update st i 0 r) i 0 = score st i 0) := by
  constructor
  · intro K d st i x r hx heq
    have heq2 : st.As i + vecMulVec x x = st.As i := by
      have h0 : (update st i x r).As i = st.As i + vecMulVec x x :=
        Function.update_same _ _ _
      rw [h0] at heq
      exact heq
    have hXz : vecMulVec x x = 0 := by
      have := add_right_eq_self.mp heq2
      exact this
    obtain ⟨j, hj⟩ := Function.ne_iff.mp hx
    have hjj := congrFun (congrFun hXz j) j
    simp only [vecMulVec_apply, Matrix.zero_apply, mul_self_eq_zero] at hjj
    exact hj hjj
  · intro K d st i r
    have hz : ∀ (st : HybridState K d), score st i 0 = 0 := by
      intro st
      simp [score, predicted, sVal, Matrix.dotProduct_zero, Matrix.zero_dotProduct,
        Matrix.mulVec_zero, Real.sqrt_zero]
    rw [hz, hz]

/-- Witness for the amended C10: with the program's dimensions and the all-one
feature vector, the update of engine 0 with reward 1 changes As 0. -/
theorem c10_update_not_noop_witness :
    (update (initState 4 11) 0 (fun _ => 1) 1).As 0 ≠ (initState 4 11).As 0 :=
  c10_update_not_noop.1 4 11 (initState 4 11) 0 (fun _ => 1) 1 (by
    intro h
    have h0 := congrFun h 0
    norm_num at h0)

end SplitHybrid
